import Mathlib

/-!
Shallow embedding of the `fenwick` Rust crate (Fenwick tree / binary indexed tree).

Machine integers (`usize`) are modelled as `Nat` with an explicit 64-bit width:
`USIZE = 2^64` is the number of values, `allOnes = 2^64 - 1` is `!0usize`
(equivalently `usize::max_value()`). Wrapping arithmetic (`wrapping_add(1)`,
`wrapping_sub(1)`) is taken modulo `USIZE`.

The crate's live module tree (`lib.rs`) is `index` (module `src/index.rs`,
whose functions `assert!` their preconditions) and `array` (module
`src/array.rs`). The repository also contains unwired historical copies
`src/index_iter.rs` / `src/slice.rs` whose iterators silently stop instead of
panicking; they are embedded under the `indexIter` namespace.

Panics (failed `assert!`, out-of-bounds indexing, the unrepresentable calls)
are modelled by `Option`/`Except`: `none` / `.error s` means the call panics,
where for `array.update` the error payload `s` is the state of the borrowed
slice at the moment of the panic.

Iterator adapters such as `std::iter::successors` yield their seed first and
then repeat the step function while the continuation test holds; each embedded
`*_seq` function returns the full (finite) list of yielded values.
-/

def USIZE : Nat := 2 ^ 64

/-- The all-ones word `!0usize = usize::max_value() = 2^64 - 1`. -/
def allOnes : Nat := USIZE - 1

/-- Rust `x.wrapping_sub(1)` on `usize`. -/
def wrappingSub1 (x : Nat) : Nat := (x + (USIZE - 1)) % USIZE

/-- Rust `x.wrapping_add(1)` on `usize`. -/
def wrappingAdd1 (x : Nat) : Nat := (x + 1) % USIZE

namespace index

namespace one_based

/-- Source `index.rs`, `one_based::next_down`: `i & i.wrapping_sub(1)`. -/
def next_down (i : Nat) : Nat := i &&& wrappingSub1 i

/-- Source `index.rs`, `one_based::down`, as the list of yielded indices:
yields the current value while it is nonzero. -/
def down_seq (x : Nat) : List Nat :=
  if h : x = 0 then [] else x :: down_seq (next_down x)
termination_by x
decreasing_by
  have h1 : x &&& wrappingSub1 x ≤ wrappingSub1 x := Nat.and_le_right
  have h2 : wrappingSub1 x < USIZE := Nat.mod_lt _ (by simp [USIZE])
  unfold next_down
  by_cases hw : x < USIZE
  · have h3 : wrappingSub1 x = x - 1 := by
      unfold wrappingSub1
      have h4 : x + (USIZE - 1) = (x - 1) + USIZE := by omega
      rw [h4, Nat.add_mod_right]
      exact Nat.mod_eq_of_lt (by omega)
    omega
  · omega

/-- Source `index.rs`, `one_based::down(init)`: `assert!(1 <= init)`, then the
`successors` iterator. A failed assertion is `none`. -/
def down (init : Nat) : Option (List Nat) :=
  if 1 ≤ init then some (down_seq init) else none

/-- Source `index.rs`, `one_based::next_up`: `(i | i.wrapping_sub(1)) + 1`.
Under the `up` preconditions every value this is applied to satisfies
`1 ≤ i ≤ limit ≤ 2^63 - 1`, so the trailing unchecked `+ 1` cannot overflow. -/
def next_up (i : Nat) : Nat := (i ||| wrappingSub1 i) + 1

/-- Source `index.rs`, `one_based::up`, as the list of yielded indices:
yields the current value while it is at most `limit_inclusive`. -/
def up_seq (x limit : Nat) : List Nat :=
  if h : x ≤ limit then x :: up_seq (next_up x) limit else []
termination_by limit + 1 - x
decreasing_by
  have h1 : x ≤ x ||| wrappingSub1 x := by
    have habs : x &&& (x ||| wrappingSub1 x) = x := by
      apply Nat.eq_of_testBit_eq
      intro i
      rw [Nat.testBit_and, Nat.testBit_or]
      cases x.testBit i <;> cases (wrappingSub1 x).testBit i <;> rfl
    calc x = x &&& (x ||| wrappingSub1 x) := habs.symm
      _ ≤ x ||| wrappingSub1 x := Nat.and_le_right
  unfold next_up
  omega

/-- Source `index.rs`, `one_based::up(init, limit_inclusive)`:
`assert!(1 <= init)`, `assert!(init <= limit_inclusive)`,
`assert!(limit_inclusive <= usize::max_value() >> 1)`, then the iterator. -/
def up (init limit_inclusive : Nat) : Option (List Nat) :=
  if 1 ≤ init ∧ init ≤ limit_inclusive ∧ limit_inclusive ≤ allOnes >>> 1 then
    some (up_seq init limit_inclusive)
  else none

end one_based

namespace zero_based

/-- Source `index.rs`, `zero_based::next_down`:
`(i & i.wrapping_add(1)).wrapping_sub(1)`. -/
def next_down (i : Nat) : Nat := wrappingSub1 (i &&& wrappingAdd1 i)

/-- Termination measure for the zero-based down iteration: the all-ones
sentinel is terminal, every other cursor strictly decreases. -/
def downMeasure (x : Nat) : Nat := if x = allOnes then 0 else x + 1

/-- Source `index.rs`, `zero_based::down`, as the list of yielded indices:
yields the current value while it differs from `!0`. -/
def down_seq (x : Nat) : List Nat :=
  if h : x = allOnes then [] else x :: down_seq (next_down x)
termination_by downMeasure x
decreasing_by
  have hall : allOnes < USIZE := by simp [allOnes, USIZE]
  have hA1 : allOnes + 1 = USIZE := by
    have h9 := hall
    unfold allOnes at h9 ⊢
    omega
  have hs0 : wrappingSub1 0 = allOnes := by
    unfold wrappingSub1 allOnes
    rw [Nat.zero_add]
    exact Nat.mod_eq_of_lt (by omega)
  have hsz : ∀ y : Nat, 1 ≤ y → y < USIZE → wrappingSub1 y = y - 1 := by
    intro y hy1 hy2
    unfold wrappingSub1
    have h4 : y + (USIZE - 1) = (y - 1) + USIZE := by omega
    rw [h4, Nat.add_mod_right]
    exact Nat.mod_eq_of_lt (by omega)
  unfold downMeasure next_down
  rw [if_neg h]
  by_cases hw : x < allOnes
  · have hadd : wrappingAdd1 x = x + 1 := by
      unfold wrappingAdd1
      exact Nat.mod_eq_of_lt (by omega)
    rw [hadd]
    have hy : x &&& (x + 1) ≤ x := Nat.and_le_left
    by_cases h0 : x &&& (x + 1) = 0
    · rw [h0, hs0, if_pos rfl]
      omega
    · rw [hsz _ (by omega) (by omega), if_neg (by omega)]
      omega
  · have hgt : allOnes < x := by omega
    have h1 : wrappingSub1 (x &&& wrappingAdd1 x) < USIZE := Nat.mod_lt _ (by simp [USIZE])
    by_cases h2 : wrappingSub1 (x &&& wrappingAdd1 x) = allOnes
    · rw [h2, if_pos rfl]
      omega
    · rw [if_neg h2]
      omega

/-- Source `index.rs`, `zero_based::down(init)`: `assert_ne!(init, !0)`,
then the `successors` iterator. -/
def down (init : Nat) : Option (List Nat) :=
  if init ≠ allOnes then some (down_seq init) else none

/-- Source `index.rs`, `zero_based::next_up`: `i | i.wrapping_add(1)`. -/
def next_up (i : Nat) : Nat := i ||| wrappingAdd1 i

/-- Source `index.rs`, `zero_based::up`, as the list of yielded indices:
yields the current value while it is below `limit_exclusive`. The second
conjunct records the `usize` range of `limit_exclusive` (it is the length of a
slice, hence at most `allOnes`); calls outside that range are unrepresentable
in the source. -/
def up_seq (x limit : Nat) : List Nat :=
  if h : x < limit ∧ limit ≤ allOnes then x :: up_seq (next_up x) limit else []
termination_by limit - x
decreasing_by
  have hall : allOnes < USIZE := by simp [allOnes, USIZE]
  have hadd : wrappingAdd1 x = x + 1 := by
    unfold wrappingAdd1
    exact Nat.mod_eq_of_lt (by omega)
  have h1 : x + 1 ≤ x ||| (x + 1) := by
    have habs : (x + 1) &&& (x ||| (x + 1)) = x + 1 := by
      apply Nat.eq_of_testBit_eq
      intro i
      rw [Nat.testBit_and, Nat.testBit_or]
      cases x.testBit i <;> cases (x + 1).testBit i <;> rfl
    calc x + 1 = (x + 1) &&& (x ||| (x + 1)) := habs.symm
      _ ≤ x ||| (x + 1) := Nat.and_le_right
  unfold next_up
  rw [hadd]
  omega

/-- Source `index.rs`, `zero_based::up(init, limit_exclusive)`:
`assert!(init < limit_exclusive)`, then the iterator. -/
def up (init limit_exclusive : Nat) : Option (List Nat) :=
  if init < limit_exclusive then some (up_seq init limit_exclusive) else none

end zero_based

end index

namespace indexIter

namespace one_based

/-- Source `index_iter.rs`, `one_based::Down::next`: while the cursor is
nonzero, yield it and step with `x & x.wrapping_sub(1)`. No assertion:
`down(0)` is silently empty. -/
def downList (x : Nat) : List Nat :=
  if h : x = 0 then [] else x :: downList (index.one_based.next_down x)
termination_by x
decreasing_by
  have h1 : x &&& wrappingSub1 x ≤ wrappingSub1 x := Nat.and_le_right
  have h2 : wrappingSub1 x < USIZE := Nat.mod_lt _ (by simp [USIZE])
  unfold index.one_based.next_down
  by_cases hw : x < USIZE
  · have h3 : wrappingSub1 x = x - 1 := by
      unfold wrappingSub1
      have h4 : x + (USIZE - 1) = (x - 1) + USIZE := by omega
      rw [h4, Nat.add_mod_right]
      exact Nat.mod_eq_of_lt (by omega)
    omega
  · omega

/-- Source `index_iter.rs`, `one_based::next_up`:
`(x | x.wrapping_sub(1)).wrapping_add(1)` (fully wrapping). -/
def next_up (x : Nat) : Nat := wrappingAdd1 (x ||| wrappingSub1 x)

/-- Source `index_iter.rs`, `one_based::Up::next`: while the cursor is at most
`limit_inclusive`, yield it and step with `next_up`. Started at `0` the
iterator never terminates (the cursor wraps back to `0`), so the embedding
takes an explicit fuel bound on the number of `next()` calls observed. -/
def upTake (fuel x limit : Nat) : List Nat :=
  match fuel with
  | 0 => []
  | f + 1 => if x ≤ limit then x :: upTake f (next_up x) limit else []

end one_based

namespace zero_based

/-- Source `index_iter.rs`, `zero_based::Down::next`: while the cursor differs
from `!0`, yield it and step with `(x & x.wrapping_add(1)).wrapping_sub(1)`.
No assertion: `down(!0)` is silently empty. -/
def downList (x : Nat) : List Nat :=
  if h : x = allOnes then [] else x :: downList (index.zero_based.next_down x)
termination_by index.zero_based.downMeasure x
decreasing_by
  have hall : allOnes < USIZE := by simp [allOnes, USIZE]
  have hA1 : allOnes + 1 = USIZE := by
    have h9 := hall
    unfold allOnes at h9 ⊢
    omega
  have hs0 : wrappingSub1 0 = allOnes := by
    unfold wrappingSub1 allOnes
    rw [Nat.zero_add]
    exact Nat.mod_eq_of_lt (by omega)
  have hsz : ∀ y : Nat, 1 ≤ y → y < USIZE → wrappingSub1 y = y - 1 := by
    intro y hy1 hy2
    unfold wrappingSub1
    have h4 : y + (USIZE - 1) = (y - 1) + USIZE := by omega
    rw [h4, Nat.add_mod_right]
    exact Nat.mod_eq_of_lt (by omega)
  unfold index.zero_based.downMeasure index.zero_based.next_down
  rw [if_neg h]
  by_cases hw : x < allOnes
  · have hadd : wrappingAdd1 x = x + 1 := by
      unfold wrappingAdd1
      exact Nat.mod_eq_of_lt (by omega)
    rw [hadd]
    have hy : x &&& (x + 1) ≤ x := Nat.and_le_left
    by_cases h0 : x &&& (x + 1) = 0
    · rw [h0, hs0, if_pos rfl]
      omega
    · rw [hsz _ (by omega) (by omega), if_neg (by omega)]
      omega
  · have hgt : allOnes < x := by omega
    have h1 : wrappingSub1 (x &&& wrappingAdd1 x) < USIZE := Nat.mod_lt _ (by simp [USIZE])
    by_cases h2 : wrappingSub1 (x &&& wrappingAdd1 x) = allOnes
    · rw [h2, if_pos rfl]
      omega
    · rw [if_neg h2]
      omega

end zero_based

end indexIter

namespace array

/-- Loop body of `array.rs::update`: `for ii in seq_up(i, fenwick.len()) { fenwick[ii] += delta; }`.
Each slice access is bounds-checked; on an out-of-bounds index the loop panics
with the slice in its current (partially updated) state. -/
def updateGo (delta : Int) : List Int → List Nat → Except (List Int) (List Int)
  | fw, [] => .ok fw
  | fw, ii :: rest =>
    if h : ii < fw.length then
      updateGo delta (fw.set ii (fw.get ⟨ii, h⟩ + delta)) rest
    else .error fw

/-- Source `array.rs`, `update`: drive the zero-based up sequence (whose
`assert!(i < fenwick.len())` fires before any write) and add `delta` in place
at every yielded position. `.error s` models a panic observed with the slice
in state `s`. The value type is instantiated at `Int` (`T: AddAssign + Copy + Default`). -/
def update (fenwick : List Int) (i : Nat) (delta : Int) : Except (List Int) (List Int) :=
  match index.zero_based.up i fenwick.length with
  | none => .error fenwick
  | some idxs => updateGo delta fenwick idxs

/-- Source `array.rs`, `prefix_sum`: start from `T::default()` (`0`) and add
the bounds-checked reads `fenwick[ii]` along the zero-based down sequence
(whose `assert_ne!(i, !0)` fires first); `none` models a panic. -/
def prefix_sum (fenwick : List Int) (i : Nat) : Option Int :=
  match index.zero_based.down i with
  | none => none
  | some idxs => idxs.foldlM (fun s ii => (fenwick[ii]?).map (fun v => s + v)) 0

end array

/-- Source `lib.rs`, `lowbit`: `x & ((!x).wrapping_add(1))`, with the `usize`
complement `!x = x ^^^ allOnes`. -/
def lowbit (x : Nat) : Nat := x &&& wrappingAdd1 (x ^^^ allOnes)

/-- Count of trailing zero bits (the value of Rust `x.trailing_zeros()` for
nonzero `x`); spec-side definition used to state the bit-trick identities. -/
def tz (x : Nat) : Nat :=
  if h0 : x = 0 then 0 else if x % 2 = 1 then 0 else tz (x / 2) + 1
termination_by x
decreasing_by exact Nat.div_lt_self (Nat.pos_of_ne_zero h0) (by omega)

/-- Population count (number of set bits); spec-side definition. -/
def popCount (x : Nat) : Nat :=
  if h0 : x = 0 then 0 else x % 2 + popCount (x / 2)
termination_by x
decreasing_by exact Nat.div_lt_self (Nat.pos_of_ne_zero h0) (by omega)

/-! The reference model of the spec: the logical array obtained by applying
the deltas directly, and its running prefix totals. -/

/-- Logical array value at zero-based index `k` after applying `updates`
directly (`a[u.1] += u.2` for each update, starting from all zeros). -/
def logicalArray (updates : List (Nat × Int)) (k : Nat) : Int :=
  (updates.map (fun u => if u.1 = k then u.2 else 0)).sum

/-- True running sum `a[0] + ... + a[i]` of the logical array. -/
def logicalSum (updates : List (Nat × Int)) (i : Nat) : Int :=
  ∑ m in Finset.range (i + 1), logicalArray updates m

/-- A sequence of `array.update` calls, propagating the first panic. -/
def applyUpdates : List Int → List (Nat × Int) → Except (List Int) (List Int)
  | fw, [] => .ok fw
  | fw, u :: rest =>
    match array.update fw u.1 u.2 with
    | .error e => .error e
    | .ok fw1 => applyUpdates fw1 rest

/-- Fenwick invariant: slot `ii` stores the sum of the logical values at
zero-based indices `[ii+1 - 2^(tz (ii+1)), ii]` (written below with one-based
`j` ranging over the half-open interval `(ii+1 - 2^(tz (ii+1)), ii+1]`). -/
def isFenwick (d : Nat → Int) (fw : List Int) : Prop :=
  ∀ ii : Nat, ii < fw.length →
    fw.getD ii 0 = ∑ j in Finset.Ioc (ii + 1 - 2 ^ tz (ii + 1)) (ii + 1), d (j - 1)

/-! From here on: auxiliary lemmas, then the claim theorems. -/

lemma uSIZE_pos : 0 < USIZE := by simp [USIZE]

lemma allOnes_lt : allOnes < USIZE := by simp [allOnes, USIZE]

lemma allOnes_add_one : allOnes + 1 = USIZE := by
  have := uSIZE_pos
  unfold allOnes
  omega

lemma wrappingSub1_lt (x : Nat) : wrappingSub1 x < USIZE :=
  Nat.mod_lt _ uSIZE_pos

lemma wrappingAdd1_lt (x : Nat) : wrappingAdd1 x < USIZE :=
  Nat.mod_lt _ uSIZE_pos

lemma wrappingSub1_eq (x : Nat) (h1 : 1 ≤ x) (h2 : x < USIZE) :
    wrappingSub1 x = x - 1 := by
  unfold wrappingSub1
  have h3 : x + (USIZE - 1) = (x - 1) + USIZE := by omega
  rw [h3, Nat.add_mod_right]
  exact Nat.mod_eq_of_lt (by omega)

lemma wrappingSub1_zero : wrappingSub1 0 = allOnes := by
  unfold wrappingSub1 allOnes
  rw [Nat.zero_add]
  exact Nat.mod_eq_of_lt (by have := uSIZE_pos; omega)

lemma wrappingAdd1_eq (x : Nat) (h : x < allOnes) : wrappingAdd1 x = x + 1 := by
  unfold wrappingAdd1
  have := allOnes_lt
  exact Nat.mod_eq_of_lt (by omega)

lemma wrappingAdd1_allOnes : wrappingAdd1 allOnes = 0 := by
  unfold wrappingAdd1
  have : allOnes + 1 = USIZE := by
    have := uSIZE_pos
    unfold allOnes
    omega
  rw [this, Nat.mod_self]

/-- Absorption-style bound: `x ≤ x ||| y`. -/
lemma lor_ge_left (x y : Nat) : x ≤ x ||| y := by
  have habs : x &&& (x ||| y) = x := by
    apply Nat.eq_of_testBit_eq
    intro i
    rw [Nat.testBit_and, Nat.testBit_or]
    cases x.testBit i <;> cases y.testBit i <;> rfl
  calc x = x &&& (x ||| y) := habs.symm
    _ ≤ x ||| y := Nat.and_le_right

/-- Absorption-style bound: `y ≤ x ||| y`. -/
lemma lor_ge_right (x y : Nat) : y ≤ x ||| y := by
  rw [Nat.lor_comm]
  exact lor_ge_left y x

lemma one_next_down_lt (x : Nat) (hx : x ≠ 0) : index.one_based.next_down x < x := by
  unfold index.one_based.next_down
  by_cases hw : x < USIZE
  · rw [wrappingSub1_eq x (by omega) hw]
    have h5 : x &&& (x - 1) ≤ x - 1 := Nat.and_le_right
    omega
  · have h1 : x &&& wrappingSub1 x ≤ wrappingSub1 x := Nat.and_le_right
    have h2 : wrappingSub1 x < USIZE := wrappingSub1_lt x
    omega

lemma one_next_up_gt (x : Nat) : x < index.one_based.next_up x := by
  unfold index.one_based.next_up
  have := lor_ge_left x (wrappingSub1 x)
  omega

lemma zero_next_down_measure (x : Nat) (hx : x ≠ allOnes) :
    index.zero_based.downMeasure (index.zero_based.next_down x)
      < index.zero_based.downMeasure x := by
  have hall := allOnes_lt
  unfold index.zero_based.downMeasure index.zero_based.next_down
  rw [if_neg hx]
  by_cases hw : x < allOnes
  · rw [wrappingAdd1_eq x hw]
    have hy : x &&& (x + 1) ≤ x := Nat.and_le_left
    by_cases h0 : x &&& (x + 1) = 0
    · rw [h0, wrappingSub1_zero, if_pos rfl]
      omega
    · rw [wrappingSub1_eq _ (by omega) (by omega)]
      rw [if_neg (by omega)]
      omega
  · have hgt : allOnes < x := by omega
    have h1 : wrappingSub1 (x &&& wrappingAdd1 x) < USIZE := wrappingSub1_lt _
    have h3 := allOnes_add_one
    by_cases h2 : wrappingSub1 (x &&& wrappingAdd1 x) = allOnes
    · rw [h2, if_pos rfl]
      omega
    · rw [if_neg h2]
      omega

lemma zero_next_up_gt (x : Nat) (hx : x < allOnes) : x < index.zero_based.next_up x := by
  unfold index.zero_based.next_up
  rw [wrappingAdd1_eq x hx]
  have := lor_ge_right x (x + 1)
  omega

/-! Parity decompositions of the bitwise operations, used to reason about the
bit tricks by induction on the binary representation. -/

lemma land_self (n : Nat) : n &&& n = n := by
  apply Nat.eq_of_testBit_eq
  intro i
  rw [Nat.testBit_and, Bool.and_self]

lemma lor_self (n : Nat) : n ||| n = n := by
  apply Nat.eq_of_testBit_eq
  intro i
  rw [Nat.testBit_or, Bool.or_self]

lemma land_ee (a b : Nat) : (2 * a) &&& (2 * b) = 2 * (a &&& b) := by
  simpa [Nat.bit] using Nat.land_bit false a false b

lemma land_eo (a b : Nat) : (2 * a) &&& (2 * b + 1) = 2 * (a &&& b) := by
  simpa [Nat.bit] using Nat.land_bit false a true b

lemma land_oe (a b : Nat) : (2 * a + 1) &&& (2 * b) = 2 * (a &&& b) := by
  simpa [Nat.bit] using Nat.land_bit true a false b

lemma land_oo (a b : Nat) : (2 * a + 1) &&& (2 * b + 1) = 2 * (a &&& b) + 1 := by
  simpa [Nat.bit] using Nat.land_bit true a true b

lemma lor_ee (a b : Nat) : (2 * a) ||| (2 * b) = 2 * (a ||| b) := by
  simpa [Nat.bit] using Nat.lor_bit false a false b

lemma lor_eo (a b : Nat) : (2 * a) ||| (2 * b + 1) = 2 * (a ||| b) + 1 := by
  simpa [Nat.bit] using Nat.lor_bit false a true b

lemma lor_oe (a b : Nat) : (2 * a + 1) ||| (2 * b) = 2 * (a ||| b) + 1 := by
  simpa [Nat.bit] using Nat.lor_bit true a false b

lemma lor_oo (a b : Nat) : (2 * a + 1) ||| (2 * b + 1) = 2 * (a ||| b) + 1 := by
  simpa [Nat.bit] using Nat.lor_bit true a true b

lemma xor_ee (a b : Nat) : (2 * a) ^^^ (2 * b) = 2 * (a ^^^ b) := by
  simpa [Nat.bit] using Nat.xor_bit false a false b

lemma xor_eo (a b : Nat) : (2 * a) ^^^ (2 * b + 1) = 2 * (a ^^^ b) + 1 := by
  simpa [Nat.bit] using Nat.xor_bit false a true b

lemma xor_oe (a b : Nat) : (2 * a + 1) ^^^ (2 * b) = 2 * (a ^^^ b) + 1 := by
  simpa [Nat.bit] using Nat.xor_bit true a false b

lemma xor_oo (a b : Nat) : (2 * a + 1) ^^^ (2 * b + 1) = 2 * (a ^^^ b) := by
  simpa [Nat.bit] using Nat.xor_bit true a true b

/-! Basic facts about `tz` and `popCount`. -/

lemma two_pow_succ (n : Nat) : 2 ^ (n + 1) = 2 * 2 ^ n := by
  rw [Nat.pow_succ, Nat.mul_comm]

lemma tz_odd (x : Nat) (h : x % 2 = 1) : tz x = 0 := by
  rw [tz]
  have hx : ¬ x = 0 := by omega
  rw [dif_neg hx, if_pos h]

lemma tz_even (x : Nat) (h0 : x ≠ 0) (h : x % 2 = 0) : tz x = tz (x / 2) + 1 := by
  rw [tz]
  rw [dif_neg h0, if_neg (by omega)]

lemma tz_two_mul (c : Nat) (hc : c ≠ 0) : tz (2 * c) = tz c + 1 := by
  rw [tz_even (2 * c) (by omega) (by omega)]
  have h2 : 2 * c / 2 = c := by omega
  rw [h2]

lemma tz_two_mul_add_one (c : Nat) : tz (2 * c + 1) = 0 :=
  tz_odd _ (by omega)

lemma popCount_zero : popCount 0 = 0 := by rw [popCount]; rfl

lemma popCount_two_mul (c : Nat) : popCount (2 * c) = popCount c := by
  by_cases hc : c = 0
  · subst hc; rfl
  · rw [popCount, dif_neg (by omega)]
    have h1 : 2 * c % 2 = 0 := by omega
    have h2 : 2 * c / 2 = c := by omega
    rw [h1, h2, Nat.zero_add]

lemma popCount_two_mul_add_one (c : Nat) : popCount (2 * c + 1) = popCount c + 1 := by
  rw [popCount, dif_neg (by omega)]
  have h1 : (2 * c + 1) % 2 = 1 := by omega
  have h2 : (2 * c + 1) / 2 = c := by omega
  rw [h1, h2, Nat.add_comm]

lemma lowb_le (x : Nat) (hx : 1 ≤ x) : 2 ^ tz x ≤ x := by
  induction x using Nat.strong_induction_on with
  | _ x ih =>
    obtain ⟨c, hc | hc⟩ := Nat.even_or_odd' x
    · subst hc
      have hc1 : 1 ≤ c := by omega
      rw [tz_two_mul c (by omega), two_pow_succ]
      have := ih c (by omega) hc1
      omega
    · subst hc
      rw [tz_two_mul_add_one, Nat.pow_zero]
      omega

lemma two_pow_tz_dvd (x : Nat) : 2 ^ tz x ∣ x := by
  induction x using Nat.strong_induction_on with
  | _ x ih =>
    by_cases hx : x = 0
    · subst hx; exact Dvd.intro 0 rfl
    obtain ⟨c, hc | hc⟩ := Nat.even_or_odd' x
    · by_cases hc0 : c = 0
      · subst hc0; omega
      subst hc
      rw [tz_two_mul c hc0, two_pow_succ]
      exact Nat.mul_dvd_mul_left 2 (ih c (by omega))
    · subst hc
      rw [tz_two_mul_add_one, Nat.pow_zero]
      exact Nat.one_dvd _

lemma mod_tz (x : Nat) (hx : 1 ≤ x) : x % 2 ^ (tz x + 1) = 2 ^ tz x := by
  induction x using Nat.strong_induction_on with
  | _ x ih =>
    obtain ⟨c, hc | hc⟩ := Nat.even_or_odd' x
    · subst hc
      have hc1 : 1 ≤ c := by omega
      rw [tz_two_mul c (by omega)]
      rw [two_pow_succ (tz c + 1), two_pow_succ (tz c)]
      rw [Nat.mul_mod_mul_left]
      have hih := ih c (by omega) hc1
      rw [two_pow_succ (tz c)] at hih
      rw [hih]
    · subst hc
      rw [tz_two_mul_add_one, Nat.pow_zero, Nat.pow_one]
      omega

lemma tz_eq_of_mod (u : Nat) : ∀ x, x % 2 ^ (u + 1) = 2 ^ u → tz x = u := by
  induction u with
  | zero =>
    intro x h
    rw [Nat.pow_one, Nat.pow_zero] at h
    exact tz_odd x h
  | succ u ih =>
    intro x h
    have hx0 : x ≠ 0 := by
      intro h0
      subst h0
      simp at h
      have : (1 : Nat) ≤ 2 ^ (u + 1) := Nat.one_le_two_pow
      omega
    have hdvd : (2 : Nat) ∣ 2 ^ (u + 2) := dvd_pow_self 2 (by omega)
    have heven : x % 2 = 0 := by
      have h1 : x % 2 ^ (u + 2) % 2 = x % 2 := Nat.mod_mod_of_dvd x hdvd
      rw [h] at h1
      have h2 : 2 ^ (u + 1) % 2 = 0 := by
        rw [two_pow_succ]
        exact Nat.mul_mod_right 2 _
      omega
    obtain ⟨m, rfl⟩ : ∃ m, x = 2 * m := ⟨x / 2, by omega⟩
    have hm0 : m ≠ 0 := by omega
    rw [tz_two_mul m hm0]
    congr 1
    apply ih
    rw [two_pow_succ u]
    rw [two_pow_succ (u + 1), two_pow_succ u] at h
    rw [Nat.mul_mod_mul_left] at h
    omega

/-! Bridge identities: the bit tricks expressed through `2 ^ tz`. -/

/-- The one-based down step clears the least-significant set bit:
`k & (k-1) = k - 2^(tz k)`. -/
lemma land_pred (k : Nat) (hk : 1 ≤ k) : k &&& (k - 1) = k - 2 ^ tz k := by
  induction k using Nat.strong_induction_on with
  | _ k ih =>
    obtain ⟨c, hc | hc⟩ := Nat.even_or_odd' k
    · subst hc
      have hc1 : 1 ≤ c := by omega
      have hpred : 2 * c - 1 = 2 * (c - 1) + 1 := by omega
      rw [hpred, land_eo]
      rw [ih c (by omega) hc1]
      have hle := lowb_le c hc1
      rw [tz_two_mul c (by omega), two_pow_succ]
      omega
    · subst hc
      have hpred : 2 * c + 1 - 1 = 2 * c := by omega
      rw [hpred, land_oe, land_self, tz_two_mul_add_one, Nat.pow_zero]
      omega

/-- The one-based up step ascends to the enclosing node:
`(k | (k-1)) + 1 = k + 2^(tz k)`. -/
lemma lor_pred (k : Nat) (hk : 1 ≤ k) : (k ||| (k - 1)) + 1 = k + 2 ^ tz k := by
  induction k using Nat.strong_induction_on with
  | _ k ih =>
    obtain ⟨c, hc | hc⟩ := Nat.even_or_odd' k
    · subst hc
      have hc1 : 1 ≤ c := by omega
      have hpred : 2 * c - 1 = 2 * (c - 1) + 1 := by omega
      rw [hpred, lor_eo]
      have hih := ih c (by omega) hc1
      rw [tz_two_mul c (by omega), two_pow_succ]
      omega
    · subst hc
      have hpred : 2 * c + 1 - 1 = 2 * c := by omega
      rw [hpred, lor_oe, lor_self, tz_two_mul_add_one, Nat.pow_zero]

/-- The zero-based up step sets the least-significant clear bit:
`x | (x+1) = x + 2^(tz (x+1))`. -/
lemma lor_succ (x : Nat) : x ||| (x + 1) = x + 2 ^ tz (x + 1) := by
  induction x using Nat.strong_induction_on with
  | _ x ih =>
    obtain ⟨c, hc | hc⟩ := Nat.even_or_odd' x
    · subst hc
      rw [lor_eo, lor_self, tz_two_mul_add_one, Nat.pow_zero]
    · subst hc
      have h22 : 2 * c + 1 + 1 = 2 * (c + 1) := by omega
      rw [h22, lor_oe]
      have hih := ih c (by omega)
      rw [tz_two_mul (c + 1) (by omega), two_pow_succ]
      omega

/-- Clearing the least-significant set bit removes exactly one set bit. -/
lemma popCount_sub_lowb (k : Nat) (hk : 1 ≤ k) :
    popCount (k - 2 ^ tz k) + 1 = popCount k := by
  induction k using Nat.strong_induction_on with
  | _ k ih =>
    obtain ⟨c, hc | hc⟩ := Nat.even_or_odd' k
    · subst hc
      have hc1 : 1 ≤ c := by omega
      have hle := lowb_le c hc1
      rw [tz_two_mul c (by omega), two_pow_succ]
      have hsub : 2 * c - 2 * 2 ^ tz c = 2 * (c - 2 ^ tz c) := by omega
      rw [hsub, popCount_two_mul, popCount_two_mul]
      exact ih c (by omega) hc1
    · subst hc
      rw [tz_two_mul_add_one, Nat.pow_zero]
      have hsub : 2 * c + 1 - 1 = 2 * c := by omega
      rw [hsub, popCount_two_mul, popCount_two_mul_add_one]

/-- A number below `2^m` has at most `m` set bits. -/
lemma popCount_le (m : Nat) : ∀ x, x < 2 ^ m → popCount x ≤ m := by
  induction m with
  | zero =>
    intro x hx
    have h0 : x = 0 := by simpa using hx
    rw [h0, popCount_zero]
  | succ m ih =>
    intro x hx
    rw [two_pow_succ] at hx
    obtain ⟨c, hc | hc⟩ := Nat.even_or_odd' x
    · subst hc
      rw [popCount_two_mul]
      have := ih c (by omega)
      omega
    · subst hc
      rw [popCount_two_mul_add_one]
      have := ih c (by omega)
      omega

/-- Setting the least-significant clear bit adds exactly one set bit. -/
lemma popCount_lor_succ (x : Nat) : popCount (x ||| (x + 1)) = popCount x + 1 := by
  induction x using Nat.strong_induction_on with
  | _ x ih =>
    obtain ⟨c, hc | hc⟩ := Nat.even_or_odd' x
    · subst hc
      rw [lor_eo, lor_self, popCount_two_mul_add_one, popCount_two_mul]
    · subst hc
      have h22 : 2 * c + 1 + 1 = 2 * (c + 1) := by omega
      rw [h22, lor_oe, popCount_two_mul_add_one, popCount_two_mul_add_one,
        ih c (by omega)]

/-- Complementary summands of `2^w - 1` occupy disjoint bit positions. -/
lemma land_eq_zero_of_add (w : Nat) :
    ∀ c d : Nat, c + d = 2 ^ w - 1 → c &&& d = 0 := by
  induction w with
  | zero =>
    intro c d h
    simp only [Nat.pow_zero] at h
    have hc : c = 0 := by omega
    have hd : d = 0 := by omega
    rw [hc, hd]
    exact Nat.zero_and 0
  | succ w ih =>
    intro c d h
    have h2 : 2 ^ (w + 1) = 2 * 2 ^ w := two_pow_succ w
    have hpow : 1 ≤ 2 ^ w := Nat.one_le_two_pow
    obtain ⟨a, ha | ha⟩ := Nat.even_or_odd' c <;>
      obtain ⟨b, hb | hb⟩ := Nat.even_or_odd' d <;> subst ha <;> subst hb
    · exfalso; omega
    · rw [land_eo, ih a b (by omega)]
    · rw [land_oe, ih a b (by omega)]
    · exfalso; omega

/-- Width-`w` complement: `x ^^^ (2^w - 1) = (2^w - 1) - x`. -/
lemma xor_two_pow_sub_one (w : Nat) :
    ∀ x, x < 2 ^ w → x ^^^ (2 ^ w - 1) = 2 ^ w - 1 - x := by
  induction w with
  | zero =>
    intro x hx
    have h0 : x = 0 := by omega
    subst h0
    simp
  | succ w ih =>
    intro x hx
    have h2 : 2 ^ (w + 1) = 2 * 2 ^ w := two_pow_succ w
    have hpow : 1 ≤ 2 ^ w := Nat.one_le_two_pow
    have hm : 2 ^ (w + 1) - 1 = 2 * (2 ^ w - 1) + 1 := by omega
    obtain ⟨c, hc | hc⟩ := Nat.even_or_odd' x <;> subst hc
    · rw [hm, xor_eo, ih c (by omega)]
      omega
    · rw [hm, xor_oo, ih c (by omega)]
      omega

/-- Two's-complement extraction of the lowest set bit:
`x & (2^w - x) = 2^(tz x)` for `1 ≤ x < 2^w`. -/
lemma land_two_pow_sub (w : Nat) :
    ∀ x, 1 ≤ x → x < 2 ^ w → x &&& (2 ^ w - x) = 2 ^ tz x := by
  induction w with
  | zero =>
    intro x h1 h2
    exfalso
    omega
  | succ w ih =>
    intro x h1 hx
    have h2 : 2 ^ (w + 1) = 2 * 2 ^ w := two_pow_succ w
    have hpow : 1 ≤ 2 ^ w := Nat.one_le_two_pow
    obtain ⟨c, hc | hc⟩ := Nat.even_or_odd' x <;> subst hc
    · have hc1 : 1 ≤ c := by omega
      have hcw : c < 2 ^ w := by omega
      have hsub : 2 ^ (w + 1) - 2 * c = 2 * (2 ^ w - c) := by omega
      rw [hsub, land_ee, ih c hc1 hcw, tz_two_mul c (by omega), two_pow_succ]
    · have hcw : c < 2 ^ w := by omega
      have hsub : 2 ^ (w + 1) - (2 * c + 1) = 2 * (2 ^ w - 1 - c) + 1 := by omega
      rw [hsub, land_oo, land_eq_zero_of_add w c (2 ^ w - 1 - c) (by omega),
        tz_two_mul_add_one, Nat.pow_zero]

/-- Value of `lowbit` on the `usize` range. -/
lemma lowbit_eq (x : Nat) (hx : x < USIZE) :
    lowbit x = if x = 0 then 0 else 2 ^ tz x := by
  by_cases h0 : x = 0
  · subst h0
    rw [if_pos rfl]
    unfold lowbit
    exact Nat.zero_and _
  · rw [if_neg h0]
    unfold lowbit
    have hx64 : x < 2 ^ 64 := hx
    have hall : allOnes = 2 ^ 64 - 1 := rfl
    rw [hall, xor_two_pow_sub_one 64 x hx64]
    have harg : 2 ^ 64 - 1 - x < allOnes := by rw [hall]; omega
    rw [wrappingAdd1_eq _ harg]
    have hfin : 2 ^ 64 - 1 - x + 1 = 2 ^ 64 - x := by omega
    rw [hfin]
    exact land_two_pow_sub 64 x (by omega) hx64

/-! Structural interval lemmas for the implicit tree. -/

/-- Gap lemma: no node strictly between `j` and `j + 2^(tz j)` covers `j`. -/
lemma gap (j k : Nat) (hj : 1 ≤ j) (hjk : j < k) (hk : k < j + 2 ^ tz j) :
    j ≤ k - 2 ^ tz k := by
  have hr1 : 1 ≤ k - j := by omega
  have hrs : k - j < 2 ^ tz j := by omega
  set r := k - j with hr
  have htzr : tz k = tz r := by
    apply tz_eq_of_mod
    have hlef := lowb_le r hr1
    have hlt : 2 ^ tz r < 2 ^ tz j := by omega
    have hexp : tz r < tz j :=
      (Nat.pow_lt_pow_iff_right (show 1 < 2 by omega)).mp hlt
    have hd1 : 2 ^ (tz r + 1) ∣ 2 ^ tz j := pow_dvd_pow 2 (by omega)
    have hd2 : 2 ^ (tz r + 1) ∣ j := dvd_trans hd1 (two_pow_tz_dvd j)
    obtain ⟨q, hq⟩ := hd2
    have hk2 : k = 2 ^ (tz r + 1) * q + r := by omega
    rw [hk2, Nat.mul_add_mod]
    exact mod_tz r hr1
  have hle := lowb_le r hr1
  rw [htzr]
  omega

/-- Laminar lemma: a node covering `j + 2^(tz j)` from above also covers `j`. -/
lemma laminar (j k : Nat) (hj : 1 ≤ j) (h1 : j + 2 ^ tz j ≤ k)
    (h2 : k - 2 ^ tz k < j + 2 ^ tz j) : k - 2 ^ tz k < j := by
  have hPp : (1 : Nat) ≤ 2 ^ tz j := Nat.one_le_two_pow
  have hQp : (1 : Nat) ≤ 2 ^ tz k := Nat.one_le_two_pow
  have hk1 : 1 ≤ k := by omega
  have hjm := mod_tz j hj
  have hkm := mod_tz k hk1
  rw [two_pow_succ] at hjm hkm
  set P : Nat := 2 ^ tz j with hP
  set Q : Nat := 2 ^ tz k with hQ
  have hPj : P ∣ j := by
    apply Nat.dvd_of_mod_eq_zero
    have hmm := Nat.mod_mod_of_dvd j (dvd_mul_left P 2)
    rw [hjm] at hmm
    rw [← hmm, Nat.mod_self]
  have hQk : Q ∣ k := by
    apply Nat.dvd_of_mod_eq_zero
    have hmm := Nat.mod_mod_of_dvd k (dvd_mul_left Q 2)
    rw [hkm] at hmm
    rw [← hmm, Nat.mod_self]
  have hjP2 : (j + P) % (2 * P) = 0 := by
    rw [Nat.add_mod, hjm, Nat.mod_eq_of_lt (show P < 2 * P by omega)]
    have hPP : P + P = 2 * P := by omega
    rw [hPP, Nat.mod_self]
  rcases le_or_lt (tz k) (tz j) with hts | hst
  · -- low node: the covered multiple must be `k` itself, contradiction
    have hQP : Q ∣ P := by rw [hP, hQ]; exact pow_dvd_pow 2 hts
    have hQjP : Q ∣ j + P := dvd_add (dvd_trans hQP hPj) hQP
    have hD : Q ∣ k - (j + P) := Nat.dvd_sub' hQk hQjP
    have hDlt : k - (j + P) < Q := by omega
    have hD0 : k - (j + P) = 0 := Nat.eq_zero_of_dvd_of_lt hD hDlt
    have hkjP : k = j + P := by omega
    have h2Pk : (2 * P) ∣ k := by
      rw [hkjP]
      exact Nat.dvd_of_mod_eq_zero hjP2
    have h2Q2P : (2 * Q) ∣ (2 * P) := Nat.mul_dvd_mul_left 2 hQP
    have hk0 : k % (2 * Q) = 0 := by
      obtain ⟨m, hm⟩ := dvd_trans h2Q2P h2Pk
      rw [hm, Nat.mul_mod_right]
    omega
  · -- high node: contradiction with the mod-class of `j`
    by_contra hcon
    push_neg at hcon
    have h2PQ : (2 * P) ∣ Q := by
      have : 2 ^ (tz j + 1) ∣ 2 ^ tz k := pow_dvd_pow 2 (by omega)
      rw [two_pow_succ] at this
      rw [hP, hQ]
      exact this
    have h2PkQ : (2 * P) ∣ k - Q := Nat.dvd_sub' (dvd_trans h2PQ hQk) h2PQ
    have hE : k - Q = j + (k - Q - j) := by omega
    have hElt : k - Q - j < P := by omega
    rw [hE] at h2PkQ
    have hmod : (j + (k - Q - j)) % (2 * P) = 0 := by
      obtain ⟨m, hm⟩ := h2PkQ
      rw [hm, Nat.mul_mod_right]
    rw [Nat.add_mod, hjm,
      Nat.mod_eq_of_lt (show k - Q - j < 2 * P by omega),
      Nat.mod_eq_of_lt (show P + (k - Q - j) < 2 * P by omega)] at hmod
    omega

/-! Unfolding equations for the sequence functions. -/

lemma one_down_nil : index.one_based.down_seq 0 = [] := by
  rw [index.one_based.down_seq]
  simp

lemma one_down_cons (x : Nat) (h : x ≠ 0) :
    index.one_based.down_seq x = x :: index.one_based.down_seq (index.one_based.next_down x) := by
  rw [index.one_based.down_seq]
  simp [h]

lemma one_up_stop (x limit : Nat) (h : ¬ x ≤ limit) :
    index.one_based.up_seq x limit = [] := by
  rw [index.one_based.up_seq]
  simp [h]

lemma one_up_cons (x limit : Nat) (h : x ≤ limit) :
    index.one_based.up_seq x limit
      = x :: index.one_based.up_seq (index.one_based.next_up x) limit := by
  rw [index.one_based.up_seq]
  simp [h]

lemma zero_down_nil : index.zero_based.down_seq allOnes = [] := by
  rw [index.zero_based.down_seq]
  simp

lemma zero_down_cons (x : Nat) (h : x ≠ allOnes) :
    index.zero_based.down_seq x
      = x :: index.zero_based.down_seq (index.zero_based.next_down x) := by
  rw [index.zero_based.down_seq]
  simp [h]

lemma zero_up_stop (x limit : Nat) (h : ¬ (x < limit ∧ limit ≤ allOnes)) :
    index.zero_based.up_seq x limit = [] := by
  rw [index.zero_based.up_seq]
  simp only [dif_neg h]

lemma zero_up_cons (x limit : Nat) (h : x < limit) (hL : limit ≤ allOnes) :
    index.zero_based.up_seq x limit
      = x :: index.zero_based.up_seq (index.zero_based.next_up x) limit := by
  rw [index.zero_based.up_seq]
  simp only [dif_pos (And.intro h hL)]

lemma iter_one_down_nil : indexIter.one_based.downList 0 = [] := by
  rw [indexIter.one_based.downList]
  simp

lemma iter_one_down_cons (x : Nat) (h : x ≠ 0) :
    indexIter.one_based.downList x
      = x :: indexIter.one_based.downList (index.one_based.next_down x) := by
  rw [indexIter.one_based.downList]
  simp [h]

lemma iter_zero_down_nil : indexIter.zero_based.downList allOnes = [] := by
  rw [indexIter.zero_based.downList]
  simp

lemma iter_zero_down_cons (x : Nat) (h : x ≠ allOnes) :
    indexIter.zero_based.downList x
      = x :: indexIter.zero_based.downList (index.zero_based.next_down x) := by
  rw [indexIter.zero_based.downList]
  simp [h]

/-- The two copies of the one-based down iteration agree. -/
lemma iter_one_down_eq (x : Nat) :
    indexIter.one_based.downList x = index.one_based.down_seq x := by
  induction x using Nat.strong_induction_on with
  | _ x ih =>
    by_cases h : x = 0
    · rw [h, iter_one_down_nil, one_down_nil]
    · rw [iter_one_down_cons x h, one_down_cons x h,
        ih _ (one_next_down_lt x h)]

/-- The two copies of the zero-based down iteration agree. -/
lemma iter_zero_down_eq (x : Nat) :
    indexIter.zero_based.downList x = index.zero_based.down_seq x := by
  suffices h : ∀ d x, index.zero_based.downMeasure x ≤ d →
      indexIter.zero_based.downList x = index.zero_based.down_seq x from
    h _ x le_rfl
  intro d
  induction d with
  | zero =>
    intro x hd
    have hx : x = allOnes := by
      by_contra hne
      have hm : index.zero_based.downMeasure x = x + 1 := by
        unfold index.zero_based.downMeasure
        rw [if_neg hne]
      omega
    rw [hx, iter_zero_down_nil, zero_down_nil]
  | succ d ih =>
    intro x hd
    by_cases h : x = allOnes
    · rw [h, iter_zero_down_nil, zero_down_nil]
    · rw [iter_zero_down_cons x h, zero_down_cons x h]
      have hm := zero_next_down_measure x h
      exact congrArg (List.cons x) (ih _ (by omega))

/-! Arithmetic forms of the step functions on the `usize` range. -/

lemma one_next_down_eq (x : Nat) (h1 : 1 ≤ x) (hU : x < USIZE) :
    index.one_based.next_down x = x - 2 ^ tz x := by
  unfold index.one_based.next_down
  rw [wrappingSub1_eq x h1 hU]
  exact land_pred x h1

lemma one_next_up_eq (x : Nat) (h1 : 1 ≤ x) (hU : x < USIZE) :
    index.one_based.next_up x = x + 2 ^ tz x := by
  unfold index.one_based.next_up
  rw [wrappingSub1_eq x h1 hU]
  exact lor_pred x h1

lemma zero_next_up_eq (x : Nat) (hx : x < allOnes) :
    index.zero_based.next_up x = x + 2 ^ tz (x + 1) := by
  unfold index.zero_based.next_up
  rw [wrappingAdd1_eq x hx]
  exact lor_succ x

/-! Properties of the one-based down sequence. -/

lemma one_down_mem (x : Nat) : ∀ k ∈ index.one_based.down_seq x, 1 ≤ k ∧ k ≤ x := by
  induction x using Nat.strong_induction_on with
  | _ x ih =>
    intro k hk
    by_cases h : x = 0
    · rw [h, one_down_nil] at hk
      exact absurd hk (List.not_mem_nil k)
    · rw [one_down_cons x h] at hk
      rcases List.mem_cons.mp hk with rfl | hk2
      · omega
      · have hlt := one_next_down_lt x h
        have := ih _ hlt k hk2
        omega

lemma one_down_length (x : Nat) (hU : x < USIZE) :
    (index.one_based.down_seq x).length = popCount x := by
  induction x using Nat.strong_induction_on with
  | _ x ih =>
    by_cases h : x = 0
    · rw [h, one_down_nil, popCount_zero]
      rfl
    · rw [one_down_cons x h, List.length_cons]
      rw [one_next_down_eq x (by omega) hU]
      have hone : (1 : Nat) ≤ 2 ^ tz x := Nat.one_le_two_pow
      have hlt : x - 2 ^ tz x < x := by omega
      rw [ih _ hlt (by omega)]
      exact popCount_sub_lowb x (by omega)

lemma one_down_chain (x : Nat) (hU : x < USIZE) :
    List.Chain' (fun a b => b = a &&& (a - 1)) (index.one_based.down_seq x) := by
  induction x using Nat.strong_induction_on with
  | _ x ih =>
    by_cases h : x = 0
    · rw [h, one_down_nil]
      exact List.chain'_nil
    · rw [one_down_cons x h]
      have hnd : index.one_based.next_down x = x &&& (x - 1) := by
        unfold index.one_based.next_down
        rw [wrappingSub1_eq x (by omega) hU]
      have hlt := one_next_down_lt x h
      by_cases h2 : index.one_based.next_down x = 0
      · rw [h2, one_down_nil]
        exact List.chain'_singleton x
      · rw [one_down_cons _ h2, List.chain'_cons]
        refine ⟨hnd, ?_⟩
        rw [← one_down_cons _ h2]
        exact ih _ hlt (by omega)

lemma one_down_last (x : Nat) (h1 : 1 ≤ x) (hU : x < USIZE) :
    ∃ m, (index.one_based.down_seq x).getLast? = some m ∧ m &&& (m - 1) = 0 := by
  induction x using Nat.strong_induction_on with
  | _ x ih =>
    have h : x ≠ 0 := by omega
    by_cases h2 : index.one_based.next_down x = 0
    · refine ⟨x, ?_, ?_⟩
      · rw [one_down_cons x h, h2, one_down_nil]
        rfl
      · have hnd : index.one_based.next_down x = x &&& (x - 1) := by
          unfold index.one_based.next_down
          rw [wrappingSub1_eq x (by omega) hU]
        rw [← hnd]
        exact h2
    · have hlt := one_next_down_lt x h
      obtain ⟨m, hm1, hm2⟩ := ih _ hlt (by omega) (by omega)
      refine ⟨m, ?_, hm2⟩
      rw [one_down_cons x h]
      rw [one_down_cons _ h2] at hm1 ⊢
      rw [List.getLast?_cons_cons]
      exact hm1

/-! Properties of the one-based up sequence. -/

lemma one_up_ge (N : Nat) : ∀ j, ∀ k ∈ index.one_based.up_seq j N, j ≤ k := by
  suffices h : ∀ d j, N + 1 - j ≤ d → ∀ k ∈ index.one_based.up_seq j N, j ≤ k from
    fun j => h (N + 1 - j) j le_rfl
  intro d
  induction d with
  | zero =>
    intro j hd k hk
    rw [one_up_stop j N (by omega)] at hk
    exact absurd hk (List.not_mem_nil k)
  | succ d ih =>
    intro j hd k hk
    by_cases hj : j ≤ N
    · rw [one_up_cons j N hj] at hk
      rcases List.mem_cons.mp hk with rfl | hk2
      · exact le_rfl
      · have hgt := one_next_up_gt j
        have := ih _ (by omega) k hk2
        omega
    · rw [one_up_stop j N hj] at hk
      exact absurd hk (List.not_mem_nil k)

lemma one_up_nodup (N : Nat) : ∀ j, (index.one_based.up_seq j N).Nodup := by
  suffices h : ∀ d j, N + 1 - j ≤ d → (index.one_based.up_seq j N).Nodup from
    fun j => h (N + 1 - j) j le_rfl
  intro d
  induction d with
  | zero =>
    intro j hd
    rw [one_up_stop j N (by omega)]
    exact List.nodup_nil
  | succ d ih =>
    intro j hd
    by_cases hj : j ≤ N
    · rw [one_up_cons j N hj, List.nodup_cons]
      have hgt := one_next_up_gt j
      refine ⟨?_, ih _ (by omega)⟩
      intro hmem
      exact absurd (one_up_ge N _ j hmem) (by omega)
    · rw [one_up_stop j N hj]
      exact List.nodup_nil

/-- Characterization of the one-based up sequence: it visits exactly the
nodes whose covered interval contains the starting index. -/
lemma one_up_mem (N : Nat) (hN : N < USIZE) :
    ∀ j, 1 ≤ j → ∀ k,
      (k ∈ index.one_based.up_seq j N ↔ j ≤ k ∧ k ≤ N ∧ k - 2 ^ tz k < j) := by
  suffices h : ∀ d j, N + 1 - j ≤ d → 1 ≤ j → ∀ k,
      (k ∈ index.one_based.up_seq j N ↔ j ≤ k ∧ k ≤ N ∧ k - 2 ^ tz k < j) from
    fun j hj k => h (N + 1 - j) j le_rfl hj k
  intro d
  induction d with
  | zero =>
    intro j hd hj k
    rw [one_up_stop j N (by omega)]
    simp only [List.not_mem_nil, false_iff]
    intro hcon
    omega
  | succ d ih =>
    intro j hd hj k
    by_cases hjN : j ≤ N
    · rw [one_up_cons j N hjN, one_next_up_eq j hj (by omega)]
      have hL1 : (1 : Nat) ≤ 2 ^ tz j := Nat.one_le_two_pow
      have hiff := ih (j + 2 ^ tz j) (by omega) (by omega) k
      rw [List.mem_cons, hiff]
      constructor
      · rintro (rfl | ⟨hjk2, hkN, hcov⟩)
        · exact ⟨le_rfl, hjN, by omega⟩
        · exact ⟨by omega, hkN, laminar j k hj hjk2 hcov⟩
      · rintro ⟨hjk, hkN, hcov⟩
        by_cases heq : k = j
        · exact Or.inl heq
        · right
          have hjk2 : j + 2 ^ tz j ≤ k := by
            by_contra hcon
            push_neg at hcon
            have := gap j k hj (by omega) hcon
            omega
          exact ⟨hjk2, hkN, by omega⟩
    · rw [one_up_stop j N hjN]
      simp only [List.not_mem_nil, false_iff]
      intro hcon
      omega

/-! Cross-convention transfer: the zero-based sequences are the one-based
sequences shifted down by one. -/

lemma down_transfer (x : Nat) (hx : x < allOnes) :
    index.zero_based.down_seq x
      = (index.one_based.down_seq (x + 1)).map (fun k => k - 1) := by
  induction x using Nat.strong_induction_on with
  | _ x ih =>
    have hx0 : x ≠ allOnes := by omega
    have hx1 : x + 1 ≠ 0 := by omega
    rw [zero_down_cons x hx0, one_down_cons (x + 1) hx1, List.map_cons]
    have hh : x + 1 - 1 = x := by omega
    rw [hh]
    congr 1
    have hU : x + 1 < USIZE := by
      have := allOnes_add_one
      omega
    have hone : index.one_based.next_down (x + 1) = (x + 1) &&& x := by
      unfold index.one_based.next_down
      rw [wrappingSub1_eq (x + 1) (by omega) hU]
      congr 1
    have hzero : index.zero_based.next_down x = wrappingSub1 ((x + 1) &&& x) := by
      unfold index.zero_based.next_down
      rw [wrappingAdd1_eq x hx, Nat.land_comm]
    by_cases hy : (x + 1) &&& x = 0
    · rw [hone, hzero, hy, wrappingSub1_zero, zero_down_nil, one_down_nil]
      rfl
    · have hyx : (x + 1) &&& x ≤ x := Nat.and_le_right
      have hau := allOnes_lt
      set y := (x + 1) &&& x with hydef
      rw [hone, hzero, wrappingSub1_eq y (by omega) (by omega)]
      have hih := ih (y - 1) (by omega) (by omega)
      rw [show y - 1 + 1 = y from by omega] at hih
      exact hih

lemma up_transfer (L : Nat) (hL : L ≤ allOnes) :
    ∀ x, index.zero_based.up_seq x L
      = (index.one_based.up_seq (x + 1) L).map (fun k => k - 1) := by
  suffices h : ∀ d x, L - x ≤ d → index.zero_based.up_seq x L
      = (index.one_based.up_seq (x + 1) L).map (fun k => k - 1) from
    fun x => h (L - x) x le_rfl
  intro d
  induction d with
  | zero =>
    intro x hd
    have hxL : ¬ x < L := by omega
    rw [zero_up_stop x L (fun hc => hxL hc.1), one_up_stop (x + 1) L (by omega)]
    rfl
  | succ d ih =>
    intro x hd
    by_cases hxL : x < L
    · have hxa : x < allOnes := by omega
      rw [zero_up_cons x L hxL hL, one_up_cons (x + 1) L (by omega), List.map_cons]
      have hh : x + 1 - 1 = x := by omega
      rw [hh]
      congr 1
      have hU : x + 1 < USIZE := by
        have := allOnes_add_one
        omega
      have hone : index.one_based.next_up (x + 1) = index.zero_based.next_up x + 1 := by
        unfold index.one_based.next_up index.zero_based.next_up
        rw [wrappingSub1_eq (x + 1) (by omega) hU, wrappingAdd1_eq x hxa]
        have h1 : x + 1 - 1 = x := by omega
        rw [h1, Nat.lor_comm]
      rw [hone]
      apply ih
      have := zero_next_up_gt x hxa
      omega
    · rw [zero_up_stop x L (fun hc => hxL hc.1), one_up_stop (x + 1) L (by omega)]
      rfl

/-! Range bounds for the zero-based sequences. -/

lemma zero_up_mem_lt (L : Nat) : ∀ x, ∀ p ∈ index.zero_based.up_seq x L, p < L := by
  suffices h : ∀ d x, L - x ≤ d → ∀ p ∈ index.zero_based.up_seq x L, p < L from
    fun x => h (L - x) x le_rfl
  intro d
  induction d with
  | zero =>
    intro x hd p hp
    rw [zero_up_stop x L (fun hc => by omega)] at hp
    exact absurd hp (List.not_mem_nil p)
  | succ d ih =>
    intro x hd p hp
    by_cases hg : x < L ∧ L ≤ allOnes
    · rw [zero_up_cons x L hg.1 hg.2] at hp
      rcases List.mem_cons.mp hp with rfl | hp2
      · exact hg.1
      · have hgt := zero_next_up_gt x (by omega)
        exact ih _ (by omega) p hp2
    · rw [zero_up_stop x L hg] at hp
      exact absurd hp (List.not_mem_nil p)

lemma zero_down_mem_le (x : Nat) : ∀ p ∈ index.zero_based.down_seq x, p ≤ x := by
  suffices h : ∀ d x, index.zero_based.downMeasure x ≤ d →
      ∀ p ∈ index.zero_based.down_seq x, p ≤ x from
    fun p hp => h _ x le_rfl p hp
  intro d
  induction d with
  | zero =>
    intro x hd p hp
    have hx : x = allOnes := by
      by_contra hne
      have hm : index.zero_based.downMeasure x = x + 1 := by
        unfold index.zero_based.downMeasure
        rw [if_neg hne]
      omega
    rw [hx, zero_down_nil] at hp
    exact absurd hp (List.not_mem_nil p)
  | succ d ih =>
    intro x hd p hp
    by_cases h : x = allOnes
    · rw [h, zero_down_nil] at hp
      exact absurd hp (List.not_mem_nil p)
    · rw [zero_down_cons x h] at hp
      rcases List.mem_cons.mp hp with rfl | hp2
      · exact le_rfl
      · by_cases hnext : index.zero_based.next_down x = allOnes
        · rw [hnext, zero_down_nil] at hp2
          exact absurd hp2 (List.not_mem_nil p)
        · have hm := zero_next_down_measure x h
          have hm2 : index.zero_based.downMeasure x = x + 1 := by
            unfold index.zero_based.downMeasure
            rw [if_neg h]
          have hm3 : index.zero_based.downMeasure (index.zero_based.next_down x)
              = index.zero_based.next_down x + 1 := by
            unfold index.zero_based.downMeasure
            rw [if_neg hnext]
          have := ih _ (by omega) p hp2
          omega

/-! The down sequence partitions the prefix interval. -/

/-- Summing the covered intervals `(m - 2^(tz m), m]` along the one-based down
sequence yields the sum over the full prefix interval `(0, k]`. -/
lemma down_sum (k : Nat) (hU : k < USIZE) (f : Nat → Int) :
    ((index.one_based.down_seq k).map
      (fun m => ∑ j in Finset.Ioc (m - 2 ^ tz m) m, f j)).sum
      = ∑ j in Finset.Ioc 0 k, f j := by
  induction k using Nat.strong_induction_on with
  | _ k ih =>
    by_cases h : k = 0
    · subst h
      rw [one_down_nil]
      simp
    · rw [one_down_cons k h, List.map_cons, List.sum_cons]
      rw [one_next_down_eq k (by omega) hU]
      have hone : (1 : Nat) ≤ 2 ^ tz k := Nat.one_le_two_pow
      have hlek := lowb_le k (by omega)
      have hlt : k - 2 ^ tz k < k := by omega
      rw [ih _ hlt (by omega)]
      have hcons := Finset.sum_Ioc_consecutive f
        (Nat.zero_le (k - 2 ^ tz k)) (show k - 2 ^ tz k ≤ k by omega)
      rw [add_comm]
      exact hcons

/-! The accumulation loops of `array.rs`. -/

/-- Bounds-checked reads along a list of in-bounds positions fold to `some`
of the running total. -/
lemma foldlM_reads (fw : List Int) :
    ∀ idxs : List Nat, (∀ p ∈ idxs, p < fw.length) → ∀ s : Int,
      idxs.foldlM (fun s ii => (fw[ii]?).map (fun v => s + v)) s
        = some (s + (idxs.map (fun ii => fw.getD ii 0)).sum) := by
  intro idxs
  induction idxs with
  | nil =>
    intro hb s
    simp
  | cons p rest ih =>
    intro hb s
    have hp : p < fw.length := hb p (List.mem_cons_self p rest)
    rw [List.foldlM_cons, List.getElem?_eq_getElem hp]
    simp only [Option.map_some']
    have hsb : ∀ (v : Int) (k : Int → Option Int), some v >>= k = k v := fun _ _ => rfl
    rw [hsb]
    rw [ih (fun q hq => hb q (List.mem_cons_of_mem p hq)) (s + fw[p])]
    rw [List.map_cons, List.sum_cons, List.getD_eq_getElem fw 0 hp, add_assoc]

/-- The update loop succeeds on distinct in-bounds positions and adds `delta`
exactly at those positions. -/
lemma updateGo_ok (delta : Int) :
    ∀ idxs : List Nat, ∀ fw : List Int,
      (∀ p ∈ idxs, p < fw.length) → idxs.Nodup →
      ∃ fw', array.updateGo delta fw idxs = .ok fw' ∧ fw'.length = fw.length ∧
        ∀ p : Nat, fw'[p]?
          = (fw[p]?).map (fun v => v + if p ∈ idxs then delta else 0) := by
  intro idxs
  induction idxs with
  | nil =>
    intro fw hb hnd
    refine ⟨fw, rfl, rfl, ?_⟩
    intro p
    simp
  | cons ii rest ih =>
    intro fw hb hnd
    have hii : ii < fw.length := hb ii (List.mem_cons_self ii rest)
    rw [List.nodup_cons] at hnd
    have hstep : array.updateGo delta fw (ii :: rest)
        = array.updateGo delta (fw.set ii (fw.get ⟨ii, hii⟩ + delta)) rest := by
      rw [array.updateGo, dif_pos hii]
    obtain ⟨fw', h1, h2, h3⟩ := ih (fw.set ii (fw.get ⟨ii, hii⟩ + delta))
      (fun p hp => by
        rw [List.length_set]
        exact hb p (List.mem_cons_of_mem ii hp))
      hnd.2
    refine ⟨fw', by rw [hstep]; exact h1, by rw [h2, List.length_set], ?_⟩
    intro p
    rw [h3 p, List.getElem?_set]
    by_cases hpi : ii = p
    · subst hpi
      rw [if_pos rfl, if_pos hii]
      have hnr : ii ∉ rest := hnd.1
      rw [if_neg hnr, if_pos (List.mem_cons_self ii rest)]
      rw [List.getElem?_eq_getElem hii]
      simp only [Option.map_some']
      rw [List.get_eq_getElem]
      rw [add_zero]
    · rw [if_neg hpi]
      have hmem : (p ∈ ii :: rest) ↔ (p ∈ rest) := by
        rw [List.mem_cons]
        constructor
        · rintro (rfl | hr)
          · exact absurd rfl hpi
          · exact hr
        · exact Or.inr
      simp only [hmem]

lemma isFenwick_congr (d d' : Nat → Int) (fw : List Int)
    (h : ∀ k, d k = d' k) (hf : isFenwick d fw) : isFenwick d' fw := by
  intro ii hii
  rw [hf ii hii]
  apply Finset.sum_congr rfl
  intro j hj
  rw [h]

lemma isFenwick_zeros (N : Nat) : isFenwick (fun _ => 0) (List.replicate N 0) := by
  intro ii hii
  have hlen : ii < (List.replicate N (0 : Int)).length := hii
  rw [List.getD_eq_getElem _ _ hlen, List.getElem_replicate]
  simp

/-- Membership transfer: the zero-based up sequence contains `ii` exactly when
the one-based sequence contains `ii + 1`. -/
lemma zero_up_mem_iff (N i ii : Nat) (hN : N ≤ allOnes) :
    ii ∈ index.zero_based.up_seq i N ↔ (ii + 1) ∈ index.one_based.up_seq (i + 1) N := by
  rw [up_transfer N hN i]
  constructor
  · intro hm
    obtain ⟨a, ha, hae⟩ := List.mem_map.mp hm
    have h1 := one_up_ge N (i + 1) a ha
    have h2 : a = ii + 1 := by omega
    rwa [← h2]
  · intro hm
    exact List.mem_map.mpr ⟨ii + 1, hm, by omega⟩

/-- `array.update` at an in-bounds index succeeds and rebuilds the invariant
for the logical array with `delta` added at `i`. -/
lemma update_ok (fw : List Int) (d : Nat → Int) (i : Nat) (delta : Int)
    (hi : i < fw.length) (hN : fw.length ≤ allOnes) (hf : isFenwick d fw) :
    ∃ fw', array.update fw i delta = .ok fw' ∧ fw'.length = fw.length ∧
      isFenwick (fun k => d k + if k = i then delta else 0) fw' := by
  have hau := allOnes_lt
  have hnodup : (index.zero_based.up_seq i fw.length).Nodup := by
    rw [up_transfer fw.length hN i]
    apply List.Nodup.map_on
    · intro a ha b hb hab
      have h1 := one_up_ge fw.length (i + 1) a ha
      have h2 := one_up_ge fw.length (i + 1) b hb
      omega
    · exact one_up_nodup fw.length (i + 1)
  have hbounds := zero_up_mem_lt fw.length i
  obtain ⟨fw', h1, h2, h3⟩ :=
    updateGo_ok delta (index.zero_based.up_seq i fw.length) fw hbounds hnodup
  refine ⟨fw', ?_, h2, ?_⟩
  · unfold array.update index.zero_based.up
    rw [if_pos hi]
    exact h1
  · intro ii hii2
    have hii : ii < fw.length := by rw [← h2]; exact hii2
    have hgd : fw'.getD ii 0 = fw.getD ii 0
        + (if ii ∈ index.zero_based.up_seq i fw.length then delta else 0) := by
      rw [List.getD_eq_getElem?_getD, h3 ii, List.getElem?_eq_getElem hii]
      simp only [Option.map_some', Option.getD_some]
      rw [List.getD_eq_getElem fw 0 hii]
    rw [hgd, hf ii hii]
    have hL1 : (1 : Nat) ≤ 2 ^ tz (ii + 1) := Nat.one_le_two_pow
    have hcong : ∀ j ∈ Finset.Ioc (ii + 1 - 2 ^ tz (ii + 1)) (ii + 1),
        d (j - 1) + (if j - 1 = i then delta else 0)
          = d (j - 1) + (if j = i + 1 then delta else 0) := by
      intro j hj
      rw [Finset.mem_Ioc] at hj
      by_cases hji : j = i + 1
      · rw [if_pos hji, if_pos (by omega)]
      · rw [if_neg hji, if_neg (by omega)]
    rw [Finset.sum_congr rfl hcong, Finset.sum_add_distrib,
      Finset.sum_ite_eq' (Finset.Ioc (ii + 1 - 2 ^ tz (ii + 1)) (ii + 1)) (i + 1)
        (fun _ => delta)]
    congr 1
    have hmem2 : ii ∈ index.zero_based.up_seq i fw.length ↔
        i + 1 ∈ Finset.Ioc (ii + 1 - 2 ^ tz (ii + 1)) (ii + 1) := by
      rw [zero_up_mem_iff fw.length i ii hN,
        one_up_mem fw.length (by omega) (i + 1) (by omega) (ii + 1), Finset.mem_Ioc]
      constructor
      · rintro ⟨ha, hb, hc⟩
        exact ⟨by omega, by omega⟩
      · rintro ⟨ha, hb⟩
        exact ⟨by omega, by omega, by omega⟩
    by_cases hm : ii ∈ index.zero_based.up_seq i fw.length
    · rw [if_pos hm, if_pos (hmem2.mp hm)]
    · rw [if_neg hm, if_neg (fun hc => hm (hmem2.mpr hc))]

/-- Reindexing a half-open one-based interval sum to a zero-based range sum. -/
lemma sum_Ioc_shift (n : Nat) (g : Nat → Int) :
    ∑ j in Finset.Ioc 0 n, g (j - 1) = ∑ m in Finset.range n, g m := by
  induction n with
  | zero => simp
  | succ n ih =>
    rw [Finset.sum_Ioc_succ_top (Nat.zero_le n), ih, Finset.sum_range_succ]
    congr 2

/-- `array.prefix_sum` at an in-bounds index returns the true prefix total of
the logical array described by the invariant. -/
lemma prefix_sum_ok (fw : List Int) (d : Nat → Int) (i : Nat)
    (hi : i < fw.length) (hN : fw.length ≤ allOnes) (hf : isFenwick d fw) :
    array.prefix_sum fw i = some (∑ m in Finset.range (i + 1), d m) := by
  have hau := allOnes_lt
  have hia : i < allOnes := by omega
  have hiU : i + 1 < USIZE := by omega
  unfold array.prefix_sum index.zero_based.down
  rw [if_pos (show i ≠ allOnes by omega)]
  show (index.zero_based.down_seq i).foldlM
      (fun s ii => (fw[ii]?).map (fun v => s + v)) 0 = _
  have hb : ∀ p ∈ index.zero_based.down_seq i, p < fw.length := by
    intro p hp
    have := zero_down_mem_le i p hp
    omega
  rw [foldlM_reads fw _ hb 0, zero_add]
  congr 1
  have hmapc : (index.zero_based.down_seq i).map (fun ii => fw.getD ii 0)
      = (index.zero_based.down_seq i).map
          (fun ii => ∑ j in Finset.Ioc (ii + 1 - 2 ^ tz (ii + 1)) (ii + 1), d (j - 1)) := by
    apply List.map_congr_left
    intro ii hii
    exact hf ii (hb ii hii)
  rw [hmapc, down_transfer i hia, List.map_map]
  have hmapc2 : (index.one_based.down_seq (i + 1)).map
      ((fun ii => ∑ j in Finset.Ioc (ii + 1 - 2 ^ tz (ii + 1)) (ii + 1), d (j - 1))
        ∘ (fun k => k - 1))
      = (index.one_based.down_seq (i + 1)).map
          (fun k => ∑ j in Finset.Ioc (k - 2 ^ tz k) k, d (j - 1)) := by
    apply List.map_congr_left
    intro k hk
    have hk1 := one_down_mem (i + 1) k hk
    simp only [Function.comp_apply]
    have hkk : k - 1 + 1 = k := by omega
    rw [hkk]
  rw [hmapc2, down_sum (i + 1) hiU (fun j => d (j - 1))]
  exact sum_Ioc_shift (i + 1) d

/-- Folding a list of updates through `array.update` keeps the invariant and
accumulates the logical array. -/
lemma applyUpdates_ok (N : Nat) (hN : N ≤ allOnes) :
    ∀ updates : List (Nat × Int), ∀ fw : List Int, ∀ d : Nat → Int,
      fw.length = N → (∀ u ∈ updates, u.1 < N) → isFenwick d fw →
      ∃ fw', applyUpdates fw updates = .ok fw' ∧ fw'.length = N ∧
        isFenwick (fun k => d k + logicalArray updates k) fw' := by
  intro updates
  induction updates with
  | nil =>
    intro fw d hlen hu hf
    refine ⟨fw, rfl, hlen, ?_⟩
    apply isFenwick_congr d _ fw _ hf
    intro k
    simp [logicalArray]
  | cons u rest ih =>
    intro fw d hlen hu hf
    obtain ⟨fw1, h1, h2, h3⟩ := update_ok fw d u.1 u.2
      (by rw [hlen]; exact hu u (List.mem_cons_self u rest))
      (by rw [hlen]; exact hN) hf
    obtain ⟨fw', h4, h5, h6⟩ := ih fw1 _ (by rw [h2, hlen])
      (fun v hv => hu v (List.mem_cons_of_mem u hv)) h3
    refine ⟨fw', ?_, h5, ?_⟩
    · show (match array.update fw u.1 u.2 with
          | Except.error e => Except.error e
          | Except.ok fw1 => applyUpdates fw1 rest) = Except.ok fw'
      rw [h1]
      exact h4
    · apply isFenwick_congr _ _ fw' _ h6
      intro k
      unfold logicalArray
      rw [List.map_cons, List.sum_cons]
      by_cases hk : k = u.1
      · rw [if_pos hk, if_pos hk.symm]
        ring
      · rw [if_neg hk, if_neg (fun hc => hk hc.symm)]
        ring

/-- Full update/query duality for the Fenwick accumulator. -/
lemma duality (N : Nat) (hN : N ≤ allOnes) (updates : List (Nat × Int))
    (hu : ∀ u ∈ updates, u.1 < N) (i : Nat) (hi : i < N) :
    ∃ fw, applyUpdates (List.replicate N 0) updates = .ok fw ∧
      array.prefix_sum fw i = some (logicalSum updates i) := by
  obtain ⟨fw, h1, h2, h3⟩ := applyUpdates_ok N hN updates (List.replicate N 0)
    (fun _ => 0) (List.length_replicate N 0) hu (isFenwick_zeros N)
  refine ⟨fw, h1, ?_⟩
  rw [prefix_sum_ok fw _ i (by rw [h2]; exact hi) (by rw [h2]; exact hN) h3]
  congr 1
  unfold logicalSum
  apply Finset.sum_congr rfl
  intro m hm
  rw [zero_add]

/-! Boundary evaluations and totality lemmas. -/

lemma allOnes_shr1 : allOnes >>> 1 = 2 ^ 63 - 1 := by decide

lemma zero_down_zero : index.zero_based.down_seq 0 = [0] := by
  have h0 : (0 : Nat) ≠ allOnes := by decide
  rw [zero_down_cons 0 h0]
  have hn : index.zero_based.next_down 0 = allOnes := by
    unfold index.zero_based.next_down
    rw [Nat.zero_and, wrappingSub1_zero]
  rw [hn, zero_down_nil]

lemma one_down_one : index.one_based.down_seq 1 = [1] := by
  rw [one_down_cons 1 (by omega)]
  have hn : index.one_based.next_down 1 = 0 := by
    unfold index.one_based.next_down
    rw [wrappingSub1_eq 1 le_rfl (by decide), Nat.and_zero]
  rw [hn, one_down_nil]

lemma one_up_eq_self (init : Nat) (h1 : 1  ≤ init) (h2 : init ≤ 2 ^ 63 - 1) :
    index.one_based.up init init = some [init] := by
  unfold index.one_based.up
  rw [if_pos ⟨h1, le_rfl, by rw [allOnes_shr1]; exact h2⟩]
  rw [one_up_cons init init le_rfl]
  rw [one_up_stop _ _ (by have := one_next_up_gt init; omega)]

lemma one_up_oob (init limit : Nat) (h : limit < init) :
    index.one_based.up init limit = none := by
  unfold index.one_based.up
  rw [if_neg]
  intro hc
  omega

lemma iter_one_up_oob (fuel init limit : Nat) (h : limit < init) :
    indexIter.one_based.upTake fuel init limit = [] := by
  cases fuel with
  | zero => rfl
  | succ f =>
    unfold indexIter.one_based.upTake
    rw [if_neg (by omega)]

lemma zero_up_seq_3_10 : index.zero_based.up_seq 3 10 = [3, 7] := by
  have h10 : (10 : Nat) ≤ allOnes := by decide
  rw [zero_up_cons 3 10 (by omega) h10]
  have hn3 : index.zero_based.next_up 3 = 7 := by
    unfold index.zero_based.next_up
    rw [wrappingAdd1_eq 3 (by decide)]
    decide
  rw [hn3, zero_up_cons 7 10 (by omega) h10]
  have hn7 : index.zero_based.next_up 7 = 15 := by
    unfold index.zero_based.next_up
    rw [wrappingAdd1_eq 7 (by decide)]
    decide
  rw [hn7, zero_up_stop 15 10 (by intro hc; omega)]

lemma zero_down_seq_3 : index.zero_based.down_seq 3 = [3] := by
  have h3a : (3 : Nat) ≠ allOnes := by decide
  rw [zero_down_cons 3 h3a]
  have hn : index.zero_based.next_down 3 = allOnes := by
    unfold index.zero_based.next_down
    rw [wrappingAdd1_eq 3 (by decide)]
    have h34 : (3 : Nat) &&& 4 = 0 := by decide
    rw [h34, wrappingSub1_zero]
  rw [hn, zero_down_nil]

/-- Step bound for the zero-based up sequence: each step sets one more bit and
at most 64 bits are available, so the loop runs at most `65 - popCount i`
times. -/
lemma zero_up_length (N : Nat) (hN : N ≤ allOnes) :
    ∀ i, i < N → (index.zero_based.up_seq i N).length + popCount i ≤ 65 := by
  suffices h : ∀ d x, N - x ≤ d → x < N →
      (index.zero_based.up_seq x N).length + popCount x ≤ 65 from
    fun i hi => h (N - i) i le_rfl hi
  intro d
  induction d with
  | zero =>
    intro x hd hx
    exact absurd hx (by omega)
  | succ d ih =>
    intro x hd hx
    rw [zero_up_cons x N hx hN]
    have hxa : x < allOnes := by omega
    have hnext : index.zero_based.next_up x = x ||| (x + 1) := by
      unfold index.zero_based.next_up
      rw [wrappingAdd1_eq x hxa]
    have hpc : popCount (x ||| (x + 1)) = popCount x + 1 := popCount_lor_succ x
    rw [List.length_cons, hnext]
    by_cases hn : x ||| (x + 1) < N
    · have hstep := lor_ge_right x (x + 1)
      have := ih (x ||| (x + 1)) (by omega) hn
      omega
    · rw [zero_up_stop _ _ (by intro hc; exact hn hc.1)]
      have hx64 : x < 2 ^ 64 := by
        have h1 := allOnes_lt
        have h2 : x < USIZE := by omega
        exact h2
      have hle := popCount_le 64 x hx64
      simp only [List.length_nil]
      omega

/-- `array.update` succeeds at any in-bounds index of a `usize`-length slice,
regardless of the slice contents. -/
lemma update_total (fw : List Int) (i : Nat) (delta : Int)
    (hi : i < fw.length) (hN : fw.length ≤ allOnes) :
    ∃ fw', array.update fw i delta = .ok fw' := by
  have hnodup : (index.zero_based.up_seq i fw.length).Nodup := by
    rw [up_transfer fw.length hN i]
    apply List.Nodup.map_on
    · intro a ha b hb hab
      have h1 := one_up_ge fw.length (i + 1) a ha
      have h2 := one_up_ge fw.length (i + 1) b hb
      omega
    · exact one_up_nodup fw.length (i + 1)
  obtain ⟨fw', h1, h2, h3⟩ := updateGo_ok delta (index.zero_based.up_seq i fw.length)
    fw (zero_up_mem_lt fw.length i) hnodup
  refine ⟨fw', ?_⟩
  unfold array.update index.zero_based.up
  rw [if_pos hi]
  exact h1

/-- `array.prefix_sum` succeeds at any in-bounds index of a `usize`-length
slice. -/
lemma prefix_sum_total (fw : List Int) (i : Nat)
    (hi : i < fw.length) (hN : fw.length ≤ allOnes) :
    ∃ s, array.prefix_sum fw i = some s := by
  unfold array.prefix_sum index.zero_based.down
  rw [if_pos (show i ≠ allOnes by omega)]
  show ∃ s, (index.zero_based.down_seq i).foldlM
      (fun s ii => (fw[ii]?).map (fun v => s + v)) 0 = some s
  have hb : ∀ p ∈ index.zero_based.down_seq i, p < fw.length := by
    intro p hp
    have := zero_down_mem_le i p hp
    omega
  rw [foldlM_reads fw _ hb 0]
  exact ⟨_, rfl⟩

/-- `array.update` at an out-of-bounds index fails inside the up-sequence
assertion, before any slot is written: the error carries the slice unchanged. -/
lemma update_oob (fw : List Int) (i : Nat) (delta : Int) (h : fw.length ≤ i) :
    array.update fw i delta = .error fw := by
  unfold array.update index.zero_based.up
  rw [if_neg (by omega)]

/-- `array.update` either fails with the slice untouched or fully succeeds. -/
lemma update_all_or_nothing (fw : List Int) (i : Nat) (delta : Int) :
    array.update fw i delta = .error fw ∨ ∃ fw', array.update fw i delta = .ok fw' := by
  by_cases hi : i < fw.length
  · by_cases hN : fw.length ≤ allOnes
    · exact Or.inr (update_total fw i delta hi hN)
    · right
      refine ⟨fw, ?_⟩
      unfold array.update index.zero_based.up
      rw [if_pos hi, zero_up_stop i fw.length (by intro hc; omega)]
      rfl
  · exact Or.inl (update_oob fw i delta (by omega))

/-! Claim theorems. -/

/-- C1: Update/query duality. For every `usize` array length `N`, every
sequence of `(index, delta)` update calls with all indices in `[0, N)`, and
every `i < N`, applying the updates via `array.update` to an initially
all-zero Fenwick slice of length `N` succeeds, and `array.prefix_sum` at `i`
returns the true running sum `a[0] + ... + a[i]` of the logical array obtained
by applying the same deltas directly. Length 0 holds vacuously (`i < 0` is
impossible), and all lengths up to `usize::MAX` are covered. -/
theorem c1_update_query_duality (N : Nat) (hN : N ≤ allOnes)
    (updates : List (Nat × Int)) (hu : ∀ u ∈ updates, u.1 < N)
    (i : Nat) (hi : i < N) :
    ∃ fw, applyUpdates (List.replicate N 0) updates = .ok fw ∧
      array.prefix_sum fw i = some (logicalSum updates i) :=
  duality N hN updates hu i hi

theorem c1_witness :
    ∃ fw, applyUpdates (List.replicate 10 0) [(0, 3), (5, 9), (4, -5), (0, -2)]
        = .ok fw ∧
      array.prefix_sum fw 5
        = some (logicalSum [(0, 3), (5, 9), (4, -5), (0, -2)] 5) :=
  c1_update_query_duality 10 (by decide) [(0, 3), (5, 9), (4, -5), (0, -2)]
    (by decide) 5 (by decide)

/-- C2 counterexample: as stated the cross-convention equivalence fails when
the bound exceeds `usize::MAX >> 1`, because `one_based::up` then fails its
assertion while `zero_based::up` succeeds: at `i = 0`, `L = 2^63` the
one-based call is an error and the zero-based call is not. -/
theorem c2_counterexample :
    ¬ (index.zero_based.up 0 (2 ^ 63)
        = (index.one_based.up (0 + 1) (2 ^ 63)).map (List.map (fun k => k - 1))) := by
  have h1 : index.one_based.up (0 + 1) (2 ^ 63) = none := by
    unfold index.one_based.up
    rw [if_neg]
    intro hc
    rw [allOnes_shr1] at hc
    have := hc.2.2
    omega
  have h2 : index.zero_based.up 0 (2 ^ 63)
      = some (index.zero_based.up_seq 0 (2 ^ 63)) := by
    unfold index.zero_based.up
    rw [if_pos (by positivity)]
  rw [h1, h2]
  simp

/-- C2 (amended): cross-convention equivalence. For every `i < usize::MAX`,
`zero_based::down(i)` equals `one_based::down(i+1)` with every element
decremented by 1; for every bound `L` with `i < L ≤ usize::MAX >> 1` (the
precondition asserted by `one_based::up`), `zero_based::up(i, L)` equals
`one_based::up(i+1, L)` with every element decremented by 1. -/
theorem c2_cross_convention_amended :
    (∀ i, i < allOnes →
      index.zero_based.down i
        = (index.one_based.down (i + 1)).map (List.map (fun k => k - 1)))
    ∧ (∀ i L, i < L → L ≤ allOnes >>> 1 →
      index.zero_based.up i L
        = (index.one_based.up (i + 1) L).map (List.map (fun k => k - 1))) := by
  constructor
  · intro i hia
    unfold index.zero_based.down index.one_based.down
    rw [if_pos (show i ≠ allOnes by omega), if_pos (show 1 ≤ i + 1 by omega)]
    rw [Option.map_some']
    exact congrArg some (down_transfer i hia)
  · intro i L hiL hL
    have hLa : L ≤ allOnes := by
      rw [allOnes_shr1] at hL
      have h1 : allOnes = 2 ^ 64 - 1 := rfl
      omega
    unfold index.zero_based.up index.one_based.up
    rw [if_pos hiL, if_pos ⟨by omega, by omega, hL⟩]
    rw [Option.map_some']
    exact congrArg some (up_transfer L hLa i)

theorem c2_witness :
    index.zero_based.down 5
        = (index.one_based.down 6).map (List.map (fun k => k - 1))
    ∧ index.zero_based.up 2 9
        = (index.one_based.up 3 9).map (List.map (fun k => k - 1)) :=
  ⟨c2_cross_convention_amended.1 5 (by decide),
   c2_cross_convention_amended.2 2 9 (by decide) (by decide)⟩

/-- C3 counterexample: the live `index::zero_based::down` does not yield the
empty sequence at the all-ones input; its `assert_ne!(init, !0)` fires, i.e.
the call panics. -/
theorem c3_counterexample : index.zero_based.down allOnes ≠ some [] := by
  unfold index.zero_based.down
  simp

/-- C3 (amended): `zero_based::down(0)` yields exactly `[0]` (both in the live
`index` module and in the historical `index_iter` copy); on the all-ones input
the historical `index_iter::zero_based::down` yields `[]`, while the live
`index::zero_based::down` fails fast on its assertion instead. -/
theorem c3_zero_down_boundary_amended :
    index.zero_based.down allOnes = none
    ∧ indexIter.zero_based.downList allOnes = []
    ∧ index.zero_based.down 0 = some [0]
    ∧ indexIter.zero_based.downList 0 = [0] := by
  refine ⟨by unfold index.zero_based.down; simp, iter_zero_down_nil, ?_, ?_⟩
  · unfold index.zero_based.down
    rw [if_pos (by decide), zero_down_zero]
  · rw [iter_zero_down_eq 0, zero_down_zero]

/-- C4 counterexample: `one_based::up(init, init) = [init]` fails for
`init = 0` (the live function asserts `1 <= init` and panics), and
`one_based::up` with `init > limit_inclusive` fails its assertion rather than
yielding `[]`. -/
theorem c4_counterexample :
    index.one_based.up 0 0 ≠ some [0] ∧ index.one_based.up 2 1 ≠ some [] := by
  constructor
  · unfold index.one_based.up
    simp
  · rw [one_up_oob 2 1 (by omega)]
    simp

/-- C4 (amended): for `1 ≤ init ≤ usize::MAX >> 1`, the live
`index::one_based::up(init, init)` yields exactly `[init]`; with
`init > limit_inclusive` the live function fails its assertion (an error, not
an empty sequence), while the historical `index_iter::one_based::up` yields
`[]` (for any number of observed iterator steps). -/
theorem c4_up_boundary_amended :
    (∀ init, 1 ≤ init → init ≤ 2 ^ 63 - 1 →
      index.one_based.up init init = some [init])
    ∧ (∀ init limit, limit < init → index.one_based.up init limit = none)
    ∧ (∀ fuel init limit, limit < init →
        indexIter.one_based.upTake fuel init limit = []) :=
  ⟨one_up_eq_self, one_up_oob, iter_one_up_oob⟩

theorem c4_witness :
    index.one_based.up 5 5 = some [5]
    ∧ index.one_based.up 7 3 = none
    ∧ indexIter.one_based.upTake 10 7 3 = [] :=
  ⟨c4_up_boundary_amended.1 5 (by decide) (by decide),
   c4_up_boundary_amended.2.1 7 3 (by decide),
   c4_up_boundary_amended.2.2 10 7 3 (by decide)⟩

/-- C5: `one_based::down(0)` fails fast with an out-of-domain error (the
assertion `1 <= init`), never a silently-empty sequence; for `init ≥ 1` it
succeeds; and `one_based::down(1)` yields exactly `[1]`. -/
theorem c5_one_based_down_domain :
    index.one_based.down 0 = none
    ∧ (∀ init, 1 ≤ init → ∃ l, index.one_based.down init = some l)
    ∧ index.one_based.down 1 = some [1] := by
  refine ⟨?_, ?_, ?_⟩
  · unfold index.one_based.down
    simp
  · intro init h1
    refine ⟨index.one_based.down_seq init, ?_⟩
    unfold index.one_based.down
    rw [if_pos h1]
  · unfold index.one_based.down
    rw [if_pos le_rfl, one_down_one]

theorem c5_witness : ∃ l, index.one_based.down 3 = some l :=
  c5_one_based_down_domain.2.1 3 (by decide)

/-- C6: atomicity of `update` on error. If `i` is out of bounds the call
fails fast with the slice unmodified (the up-sequence assertion fires before
any write), and in general every call either fails with the slice untouched
or fully succeeds; no partial set of increments is ever committed. -/
theorem c6_update_atomicity :
    (∀ (fw : List Int) (i : Nat) (delta : Int), fw.length ≤ i →
      array.update fw i delta = .error fw)
    ∧ (∀ (fw : List Int) (i : Nat) (delta : Int),
      array.update fw i delta = .error fw
        ∨ ∃ fw', array.update fw i delta = .ok fw') :=
  ⟨fun fw i delta h => update_oob fw i delta h,
   fun fw i delta => update_all_or_nothing fw i delta⟩

theorem c6_witness :
    array.update [1, 2] 5 7 = .error [1, 2]
    ∧ (array.update [1, 2] 0 3 = .error [1, 2]
        ∨ ∃ fw', array.update [1, 2] 0 3 = .ok fw') :=
  ⟨c6_update_atomicity.1 [1, 2] 5 7 (by decide),
   c6_update_atomicity.2 [1, 2] 0 3⟩

/-- C7: for every `init ≥ 1` (in `usize` range), `one_based::down(init)`
yields `init` first, the successive values follow `x & (x-1)` (clearing the
least-significant set bit), `0` is excluded from the output, iteration stops
at the value whose step reaches `0`, and the sequence length equals
`popcount(init)`. -/
theorem c7_one_based_down_structure (init : Nat) (h1 : 1 ≤ init)
    (hU : init < USIZE) :
    ∃ l, index.one_based.down init = some l
      ∧ l.head? = some init
      ∧ List.Chain' (fun a b => b = a &&& (a - 1)) l
      ∧ 0 ∉ l
      ∧ (∀ m, l.getLast? = some m → m &&& (m - 1) = 0)
      ∧ l.length = popCount init := by
  refine ⟨index.one_based.down_seq init, ?_, ?_, one_down_chain init hU, ?_, ?_,
    one_down_length init hU⟩
  · unfold index.one_based.down
    rw [if_pos h1]
  · rw [one_down_cons init (by omega)]
    rfl
  · intro h0
    have := one_down_mem init 0 h0
    omega
  · intro m hm
    obtain ⟨m', hm1, hm2⟩ := one_down_last init h1 hU
    have hmm := hm1.symm.trans hm
    have heq : m' = m := Option.some.inj hmm
    rw [← heq]
    exact hm2

theorem c7_witness :
    ∃ l, index.one_based.down 6 = some l
      ∧ l.head? = some 6
      ∧ List.Chain' (fun a b => b = a &&& (a - 1)) l
      ∧ 0 ∉ l
      ∧ (∀ m, l.getLast? = some m → m &&& (m - 1) = 0)
      ∧ l.length = popCount 6 :=
  c7_one_based_down_structure 6 (by decide) (by decide)

/-- C8: for every `usize` value `x`, `lowbit(x)` equals `1` shifted left by
the count of trailing zero bits of `x` when `x` is nonzero, and
`lowbit(0) = 0`. -/
theorem c8_lowbit_trailing_zeros (x : Nat) (hx : x < USIZE) :
    lowbit x = if x = 0 then 0 else 1 <<< tz x := by
  rw [lowbit_eq x hx]
  by_cases h : x = 0
  · rw [if_pos h, if_pos h]
  · rw [if_neg h, if_neg h, Nat.shiftLeft_eq, one_mul]

theorem c8_witness :
    lowbit 5584 = if 5584 = 0 then 0 else 1 <<< tz 5584 :=
  c8_lowbit_trailing_zeros 5584 (by decide)

/-- C9: termination bounds. Every index sequence is finite (all the embedded
sequence functions are total); a one-based down sequence has exactly
`popcount(x)` elements, a zero-based down sequence from `i` has exactly
`popcount(i+1)` elements, and a zero-based up sequence takes at most one step
per available bit position (at most `65 - popcount(i)` elements for a 64-bit
word), which bounds the loops of `update` and `prefix_sum`. -/
theorem c9_termination_bounds :
    (∀ x, x < USIZE → (index.one_based.down_seq x).length = popCount x)
    ∧ (∀ x, x < allOnes →
        (index.zero_based.down_seq x).length = popCount (x + 1))
    ∧ (∀ N i, N ≤ allOnes → i < N →
        (index.zero_based.up_seq i N).length + popCount i ≤ 65) := by
  refine ⟨fun x hx => one_down_length x hx, ?_,
    fun N i hN hi => zero_up_length N hN i hi⟩
  intro x hx
  rw [down_transfer x hx, List.length_map]
  exact one_down_length (x + 1) (by have := allOnes_add_one; omega)

theorem c9_witness :
    (index.one_based.down_seq 11).length = popCount 11
    ∧ (index.zero_based.down_seq 4).length = popCount 5
    ∧ (index.zero_based.up_seq 3 10).length + popCount 3 ≤ 65 :=
  ⟨c9_termination_bounds.1 11 (by decide),
   c9_termination_bounds.2.1 4 (by decide),
   c9_termination_bounds.2.2 10 3 (by decide) (by decide)⟩

/-- C10: in-bounds safety. Every position yielded by `zero_based::up(i, L)`
is strictly below `L`, every position yielded by `zero_based::down(i)` is at
most `i`, and hence for `i < fenwick.len()` the slice indexing inside
`update` and `prefix_sum` never goes out of bounds: both calls succeed. -/
theorem c10_inbounds_safety :
    (∀ L i, ∀ p ∈ index.zero_based.up_seq i L, p < L)
    ∧ (∀ i, ∀ p ∈ index.zero_based.down_seq i, p ≤ i)
    ∧ (∀ (fw : List Int) (i : Nat) (delta : Int),
        i < fw.length → fw.length ≤ allOnes →
        ∃ fw', array.update fw i delta = .ok fw')
    ∧ (∀ (fw : List Int) (i : Nat), i < fw.length → fw.length ≤ allOnes →
        ∃ s, array.prefix_sum fw i = some s) :=
  ⟨fun L i => zero_up_mem_lt L i, fun i => zero_down_mem_le i,
   fun fw i delta hi hN => update_total fw i delta hi hN,
   fun fw i hi hN => prefix_sum_total fw i hi hN⟩

theorem c10_witness :
    (7 : Nat) < 10 ∧ (3 : Nat) ≤ 3
    ∧ (∃ fw', array.update [1, 2, 3, 4] 2 5 = .ok fw')
    ∧ (∃ s, array.prefix_sum [1, 2, 3, 4] 2 = some s) :=
  ⟨c10_inbounds_safety.1 10 3 7 (by rw [zero_up_seq_3_10]; simp),
   c10_inbounds_safety.2.1 3 3 (by rw [zero_down_seq_3]; simp),
   c10_inbounds_safety.2.2.1 [1, 2, 3, 4] 2 5 (by decide) (by decide),
   c10_inbounds_safety.2.2.2 [1, 2, 3, 4] 2 (by decide) (by decide)⟩
